import Mathlib

/-!
# Verification of the diversity-constrained selection engine of `curate_media.py`

This file is a shallow embedding of the core selection algorithm of the
repository (`curate_media.py`): perceptual fingerprints, Hamming distance,
and `select_best_images` with its greedy diversity rounds and its
threshold-decay fallback.

Modelling conventions:

* A fingerprint (`imagehash.ImageHash`, a fixed-width bit vector) is a
  `List Bool`; the `-` operator of `imagehash` (count of differing bits,
  i.e. Hamming distance) is `hamming`.
* `get_image_hash` performs I/O (opening and decoding the image) and
  returns either a hash or `None` on a decode failure; it is modelled as
  a caller-supplied function `hashOf : String → Option Fp`.  Likewise
  `os.path.getsize` is a caller-supplied `sizeOf : String → Nat`.
* Python integers are `Nat` where the source value is a count or a file
  size, and `Int` for the decaying threshold (which the source decrements
  and compares with literals, and which may in principle pass below zero).
* `calculate_diversity_score` returns `sum(distances) / len(distances)`
  as a float.  Inside one round of the greedy loop every candidate is
  compared with the same denominator `len(selected_hashes)`, the values
  involved are tiny (sums ≤ a few thousand, denominators ≤ the target
  count), and IEEE division is correctly rounded and monotone, so the
  float comparison `diversity > best_diversity` holds exactly when the
  comparison of the integer sums holds; the embedding therefore carries
  the integer sum `diversitySum`.  The initial float `best_diversity = -1`
  is modelled by `none` (any real diversity score is nonnegative, hence
  beats it).
* The two `while` loops of the source are embedded as structurally
  recursive functions over an explicit fuel.  The fuel given at the call
  sites (`decayFuel`, `cands.length + 1`) is an exact upper bound on the
  number of iterations the corresponding Python loop can perform, and the
  fuel-stability theorems below prove that any larger fuel yields the same
  result, i.e. that the loops terminate within those bounds.
-/

/-- A perceptual fingerprint: a fixed-width bit vector. -/
abbrev Fp : Type := List Bool

/-- Hamming distance between two fingerprints: the number of differing bit
positions (`imagehash.ImageHash.__sub__`, via `count_nonzero(a.hash != b.hash)`). -/
def hamming (a b : Fp) : Nat :=
  (List.zipWith (fun x y => x != y) a b).count true

/-- One entry of the `image_data` list built by `select_best_images`:
the tuple `(path, hash_val, size)`. -/
structure Cand where
  path : String
  hash : Fp
  size : Nat
deriving DecidableEq

/-- The value `min(hash_val - h for h in selected_hashes)`: the minimum Hamming
distance from a candidate's hash to the already selected hashes.  In the
source the generator is never empty (the hero is selected before any call);
the `[]` branch is dead code and returns `0`. -/
def minDist (h : Fp) (sh : List Fp) : Nat :=
  match sh with
  | [] => 0
  | x :: xs => xs.foldl (fun m g => min m (hamming h g)) (hamming h x)

/-- The numerator of `calculate_diversity_score(selected_hashes, hash_val)`:
the sum of the distances from `h` to every selected hash.  (See the header
comment: within one greedy round the float average compares exactly as this
integer sum does.) -/
def diversitySum (h : Fp) (sh : List Fp) : Nat :=
  (sh.map (fun g => hamming h g)).sum

/-- The inner `for` of the threshold-decay fallback: find the first
remaining candidate whose minimum distance to the current selection meets
the (lowered) threshold. -/
def findAccept (sh : List Fp) (t : Int) (cs : List Cand) : Option Cand :=
  cs.find? (fun c => decide (t ≤ (minDist c.hash sh : Int)))

/-- The scan of one greedy round: walk the candidates in order, skip those
with `min_distance < similarity_threshold`, and keep the candidate with the
strictly highest diversity score seen so far (`best_diversity` starts at
`-1`, modelled by the accumulator `none`). -/
def bestAux (sh : List Fp) (t : Int) : List Cand → Option (Cand × Nat) → Option (Cand × Nat)
  | [], best => best
  | c :: cs, best =>
    if t ≤ (minDist c.hash sh : Int) then
      match best with
      | none => bestAux sh t cs (some (c, diversitySum c.hash sh))
      | some (b, d) =>
        if d < diversitySum c.hash sh then bestAux sh t cs (some (c, diversitySum c.hash sh))
        else bestAux sh t cs (some (b, d))
    else bestAux sh t cs best

/-- The `best_candidate` value at the end of one greedy round (`None` when the round
found no eligible candidate). -/
def bestCandidate (sh : List Fp) (t : Int) (cs : List Cand) : Option Cand :=
  (bestAux sh t cs none).map Prod.fst

/-- The loop state of `select_best_images`: the lists `selected`,
`selected_hashes` and `candidates`. -/
structure St where
  selected : List Cand
  selHashes : List Fp
  cands : List Cand
deriving DecidableEq

/-- Accepting a candidate: `selected.append(c)`, `selected_hashes.append(c.hash)`,
`candidates.remove(c)` (Python `list.remove` deletes the first equal element,
which is `List.erase`). -/
def pick (s : St) (c : Cand) : St :=
  { selected := s.selected ++ [c]
    selHashes := s.selHashes ++ [c.hash]
    cands := s.cands.erase c }

/-- The fallback `while threshold > 5 and len(selected) < target_count and
candidates:` loop, structurally recursive on a fuel.  Each iteration either
accepts (and removes) one candidate at the current threshold, or, when the
scan falls through (`for … else`), lowers the threshold by 2. -/
def decayAux (K : Nat) : Nat → Int → St → St
  | 0, _, s => s
  | fuel + 1, t, s =>
    if 5 < t ∧ s.selected.length < K ∧ s.cands ≠ [] then
      match findAccept s.selHashes t s.cands with
      | some c => decayAux K fuel t (pick s c)
      | none => decayAux K fuel (t - 2) s
    else s

/-- An exact bound on the number of iterations of the fallback loop: each
iteration removes a candidate or lowers the threshold by 2 toward the hard
floor 5. -/
def decayFuel (t : Int) (s : St) : Nat :=
  s.cands.length + (t - 5).toNat

/-- The threshold-decay fallback, entered by the greedy loop when a strict
round stalls. -/
def decay (K : Nat) (t : Int) (s : St) : St :=
  decayAux K (decayFuel t s) t s

/-- The main `while len(selected) < target_count and candidates:` loop,
structurally recursive on a fuel.  A round that finds a best candidate
accepts it and loops; a stalled round runs the threshold-decay fallback at
`similarity_threshold - 2` and then `break`s. -/
def greedyAux (K : Nat) (t : Int) : Nat → St → St
  | 0, s => s
  | fuel + 1, s =>
    if s.selected.length < K ∧ s.cands ≠ [] then
      match bestCandidate s.selHashes t s.cands with
      | some c => greedyAux K t fuel (pick s c)
      | none => decay K (t - 2) s
    else s

/-- An exact bound on the number of iterations of the greedy loop: each
iteration that continues removes one candidate. -/
def greedy (K : Nat) (t : Int) (s : St) : St :=
  greedyAux K t (s.cands.length + 1) s

/-- Stable insertion (descending by `size`): the new element goes in front
of the first entry whose size does not exceed it.  Used to model Python's
stable `list.sort(key=lambda x: x[2], reverse=True)`. -/
def insertBySize (c : Cand) : List Cand → List Cand
  | [] => [c]
  | y :: ys => if y.size ≤ c.size then c :: y :: ys else y :: insertBySize c ys

/-- Python's stable descending sort by size (`image_data.sort(key=lambda
x: x[2], reverse=True)`): elements of equal size keep their relative order.
Insertion from the right preserves exactly that order. -/
def sortBySizeDesc : List Cand → List Cand
  | [] => []
  | x :: xs => insertBySize x (sortBySizeDesc xs)

/-- The `image_data` list: for each path in order, fingerprint it and keep
`(path, hash_val, size)` when hashing succeeded (`if hash_val:`). -/
def imageData (hashOf : String → Option Fp) (sizeOf : String → Nat)
    (paths : List String) : List Cand :=
  paths.filterMap (fun p => (hashOf p).map (fun h => ⟨p, h, sizeOf p⟩))

/-- The selector `select_best_images(image_paths, target_count, similarity_threshold)`.
The source returns `image_paths[:target_count]` for small pools, filters out
candidates that failed to hash, sorts by size descending, selects the first
(largest) entry as the hero, runs the greedy loop, and returns the selected
paths in selection order.  (`if not image_data: return []` coincides with
the `[]` case of the sorted list, since sorting preserves emptiness.) -/
def select_best_images (hashOf : String → Option Fp) (sizeOf : String → Nat)
    (paths : List String) (K : Nat) (t : Int) : List String :=
  if paths.length ≤ K then paths.take K
  else
    match sortBySizeDesc (imageData hashOf sizeOf paths) with
    | [] => []
    | hero :: rest =>
      ((greedy K t { selected := [hero], selHashes := [hero.hash], cands := rest }).selected).map Cand.path


/-! ## Definitions used by the spec-side statements and the concrete scenarios -/

/-- Modelled from the spec side of the hero claim: scanning the pool in
order and replacing the current champion only on a strictly larger weight
yields "the highest-weight candidate, ties broken by original pool
order". -/
def firstMax1 (c : Cand) : List Cand → Cand
  | [] => c
  | y :: ys => if c.size < y.size then firstMax1 y ys else firstMax1 c ys
def thresholdSeqAux : Nat → Int → List Int
  | 0, _ => []
  | n + 1, t => if 5 < t then t :: thresholdSeqAux n (t - 2) else []

/-- The decreasing sequence of thresholds the fallback scans: `t, t − 2, …`,
keeping exactly the values strictly above the hard floor 5. -/
def thresholdSeq (t : Int) : List Int :=
  thresholdSeqAux (t - 5).toNat t
/-- Modelled from the spec's description of one decay step: at a fixed
lowered threshold, repeatedly accept (and remove) the first candidate in
pool order whose minimum distance to the current selection meets the
threshold, until the target count is reached, candidates are exhausted, or
no remaining candidate is admissible at this threshold. -/
def acceptRun (K : Nat) (t : Int) : Nat → St → St
  | 0, s => s
  | fuel + 1, s =>
    if s.selected.length < K ∧ s.cands ≠ [] then
      match findAccept s.selHashes t s.cands with
      | some c => acceptRun K t fuel (pick s c)
      | none => s
    else s
/-- Modelled from the spec's description of the fallback: process the
decremented thresholds in order, exhausting each threshold before moving to
the next lower one. -/
def decaySpec (K : Nat) : List Int → St → St
  | [], s => s
  | t :: ts, s => decaySpec K ts (acceptRun K t s.cands.length s)
/-! ## Scenario B: two tight clusters of four -/

/-- A 256-bit fingerprint (the width `phash(img, hash_size=16)` produces)
with the given bit positions set. -/
def bitvec (s : List Nat) : Fp := (List.range 256).map (fun i => s.contains i)

/-- Cluster A: four fingerprints differing pairwise in 2 bits. -/
def clusterA : List String := ["a0", "a1", "a2", "a3"]

/-- Cluster B: four fingerprints differing pairwise in 2 bits, each at
Hamming distance 40 from every cluster-A fingerprint. -/
def clusterB : List String := ["b0", "b1", "b2", "b3"]

def poolB : List String := clusterA ++ clusterB

def hashB (p : String) : Option Fp :=
  if p = "a0" then some (bitvec [0])
  else if p = "a1" then some (bitvec [1])
  else if p = "a2" then some (bitvec [2])
  else if p = "a3" then some (bitvec [3])
  else if p = "b0" then some (bitvec ((List.range 42).filter (fun k => k ≠ 4)))
  else if p = "b1" then some (bitvec ((List.range 42).filter (fun k => k ≠ 5)))
  else if p = "b2" then some (bitvec ((List.range 42).filter (fun k => k ≠ 6)))
  else if p = "b3" then some (bitvec ((List.range 42).filter (fun k => k ≠ 7)))
  else none

def sizeB (p : String) : Nat :=
  if p = "a0" then 800
  else if p = "a1" then 700
  else if p = "a2" then 600
  else if p = "a3" then 500
  else if p = "b0" then 400
  else if p = "b1" then 300
  else if p = "b2" then 200
  else 100

set_option maxRecDepth 10000
/-- The separation invariant carried through both loops: every two
fingerprints still in play (already selected or still candidates) are at
Hamming distance at least 7 — at least the lowest threshold the decay
fallback can scan. -/
def Separated (s : St) : Prop :=
  List.Pairwise (fun a b => 7 ≤ hamming a b) (s.selHashes ++ s.cands.map Cand.hash)
def poolC1 : List String := ["x", "y", "z"]

def hashC1 (p : String) : Option Fp :=
  if p = "x" ∨ p = "y" ∨ p = "z" then some (List.replicate 256 false) else none

def sizeC1 (p : String) : Nat :=
  if p = "x" then 3 else if p = "y" then 2 else 1

/-! ## Basic properties of the Hamming distance -/

theorem hamming_comm (a b : Fp) : hamming a b = hamming b a := by
  unfold hamming
  rw [List.zipWith_comm_of_comm]
  intro x y
  cases x <;> cases y <;> rfl

theorem hamming_self (a : Fp) : hamming a a = 0 := by
  unfold hamming
  rw [List.zipWith_same, List.count_eq_zero]
  intro h
  rcases List.mem_map.mp h with ⟨x, _, hx⟩
  cases x <;> simp at hx

theorem hamming_le_length (a b : Fp) : hamming a b ≤ min a.length b.length := by
  unfold hamming
  calc (List.zipWith (fun x y => x != y) a b).count true
      ≤ (List.zipWith (fun x y => x != y) a b).length := List.count_le_length true _
    _ = min a.length b.length := List.length_zipWith _ a b

/-- C8: for fingerprints of equal bit width, the distance used by the
selector is symmetric, zero on equal arguments, and a non-negative integer
bounded by the bit width (it is the Hamming distance; non-negativity is
inherent in its type `Nat`). -/
theorem claim_C8_distance_metric (a b : Fp) (w : Nat)
    (ha : a.length = w) (hb : b.length = w) :
    hamming a b = hamming b a ∧ hamming a a = 0 ∧ hamming a b ≤ w := by
  refine ⟨hamming_comm a b, hamming_self a, ?_⟩
  have := hamming_le_length a b
  omega

theorem claim_C8_distance_metric_witness :
    hamming [true, false] [false, false] = hamming [false, false] [true, false] ∧
      hamming [true, false] [true, false] = 0 ∧ hamming [true, false] [false, false] ≤ 2 :=
  claim_C8_distance_metric [true, false] [false, false] 2 (by decide) (by decide)

/-- C4: for every pool with `|pool| ≤ K` (the empty pool included),
`select_best_images` returns the entire pool unchanged in relative order —
in particular its length is `|pool|`, and an empty pool yields the empty
list.  (The function is total, so no error is raised.) -/
theorem claim_C4_small_pool (hashOf : String → Option Fp) (sizeOf : String → Nat)
    (paths : List String) (K : Nat) (t : Int) (h : paths.length ≤ K) :
    select_best_images hashOf sizeOf paths K t = paths := by
  unfold select_best_images
  rw [if_pos h]
  exact List.take_of_length_le h

theorem claim_C4_small_pool_witness :
    select_best_images (fun _ => none) (fun _ => 0) ["u", "v"] 6 15 = ["u", "v"] ∧
      select_best_images (fun _ => none) (fun _ => 0) [] 6 15 = [] :=
  ⟨claim_C4_small_pool _ _ _ 6 15 (by decide),
   claim_C4_small_pool _ _ _ 6 15 (by decide)⟩

/-! ## Where accepted candidates come from -/

theorem findAccept_mem {sh : List Fp} {t : Int} {cs : List Cand} {c : Cand}
    (h : findAccept sh t cs = some c) : c ∈ cs :=
  List.mem_of_find?_eq_some h

theorem bestAux_some {sh : List Fp} {t : Int} :
    ∀ (cs : List Cand) (acc : Option (Cand × Nat)) (p : Cand × Nat),
      bestAux sh t cs acc = some p → acc = some p ∨ p.1 ∈ cs := by
  intro cs
  induction cs with
  | nil => intro acc p h; exact Or.inl h
  | cons c cs ih =>
    intro acc p h
    rcases acc with _ | ⟨b, d⟩ <;> simp only [bestAux] at h
    · split at h
      · rcases ih _ _ h with h1 | h1
        · exact Or.inr (by cases Option.some.inj h1; exact List.mem_cons_self _ _)
        · exact Or.inr (List.mem_cons_of_mem _ h1)
      · rcases ih _ _ h with h1 | h1
        · exact absurd h1 (by simp)
        · exact Or.inr (List.mem_cons_of_mem _ h1)
    · split at h
      · split at h
        · rcases ih _ _ h with h1 | h1
          · exact Or.inr (by cases Option.some.inj h1; exact List.mem_cons_self _ _)
          · exact Or.inr (List.mem_cons_of_mem _ h1)
        · rcases ih _ _ h with h1 | h1
          · exact Or.inl h1
          · exact Or.inr (List.mem_cons_of_mem _ h1)
      · rcases ih _ _ h with h1 | h1
        · exact Or.inl h1
        · exact Or.inr (List.mem_cons_of_mem _ h1)

theorem bestCandidate_mem {sh : List Fp} {t : Int} {cs : List Cand} {c : Cand}
    (h : bestCandidate sh t cs = some c) : c ∈ cs := by
  unfold bestCandidate at h
  rcases Option.map_eq_some'.mp h with ⟨p, hp, hpc⟩
  rcases bestAux_some cs none p hp with h1 | h1
  · exact absurd h1 (by simp)
  · exact hpc ▸ h1

/-! ## The loop step is a permutation of `selected ++ candidates` -/

theorem pick_perm {s : St} {c : Cand} (h : c ∈ s.cands) :
    List.Perm ((pick s c).selected ++ (pick s c).cands) (s.selected ++ s.cands) := by
  unfold pick
  simp only
  have h1 : (s.selected ++ [c]) ++ s.cands.erase c = s.selected ++ (c :: s.cands.erase c) := by
    simp
  rw [h1]
  exact List.Perm.append_left _ (List.perm_cons_erase h).symm

theorem pick_hashes_perm {s : St} {c : Cand} (h : c ∈ s.cands) :
    List.Perm ((pick s c).selHashes ++ (pick s c).cands.map Cand.hash)
      (s.selHashes ++ s.cands.map Cand.hash) := by
  unfold pick
  simp only
  have h1 : (s.selHashes ++ [c.hash]) ++ (s.cands.erase c).map Cand.hash
      = s.selHashes ++ (c.hash :: (s.cands.erase c).map Cand.hash) := by
    simp
  rw [h1]
  refine List.Perm.append_left _ ?_
  have h2 := (List.perm_cons_erase h).map Cand.hash
  exact h2.symm

/-! ## Guard-false unfoldings -/

theorem decayAux_of_stop {K : Nat} {t : Int} {s : St}
    (h : ¬(5 < t ∧ s.selected.length < K ∧ s.cands ≠ [])) :
    ∀ fuel, decayAux K fuel t s = s := by
  intro fuel
  cases fuel with
  | zero => rfl
  | succ fuel => simp only [decayAux]; rw [if_neg h]

theorem greedyAux_of_stop {K : Nat} {t : Int} {s : St}
    (h : ¬(s.selected.length < K ∧ s.cands ≠ [])) :
    ∀ fuel, greedyAux K t fuel s = s := by
  intro fuel
  cases fuel with
  | zero => rfl
  | succ fuel => simp only [greedyAux]; rw [if_neg h]

/-! ## Termination: any fuel at least the loop bound gives the same result -/

theorem decayAux_fuel_stable (K : Nat) :
    ∀ (f : Nat) (t : Int) (s : St) (g : Nat),
      decayFuel t s ≤ f → decayFuel t s ≤ g → decayAux K f t s = decayAux K g t s := by
  intro f
  induction f with
  | zero =>
    intro t s g hf _
    have hc0 : s.cands.length = 0 := by unfold decayFuel at hf; omega
    have hc : s.cands = [] := List.length_eq_zero.mp hc0
    rw [decayAux_of_stop (by simp [hc]) 0, decayAux_of_stop (by simp [hc]) g]
  | succ f ih =>
    intro t s g hf hg
    by_cases hguard : 5 < t ∧ s.selected.length < K ∧ s.cands ≠ []
    · obtain ⟨ht5, hsel, hcne⟩ := hguard
      have hlen : 0 < s.cands.length := List.length_pos.mpr hcne
      unfold decayFuel at hf hg
      rcases g with _ | g
      · omega
      have hguard : 5 < t ∧ s.selected.length < K ∧ s.cands ≠ [] := ⟨ht5, hsel, hcne⟩
      simp only [decayAux]
      rw [if_pos hguard, if_pos hguard]
      rcases hfa : findAccept s.selHashes t s.cands with _ | c
      · exact ih (t - 2) s g (by unfold decayFuel; omega) (by unfold decayFuel; omega)
      · have hmem := findAccept_mem hfa
        have herase : (s.cands.erase c).length = s.cands.length - 1 :=
          List.length_erase_of_mem hmem
        refine ih t (pick s c) g ?_ ?_
        · unfold decayFuel pick; simp only; omega
        · unfold decayFuel pick; simp only; omega
    · rw [decayAux_of_stop hguard, decayAux_of_stop hguard]

theorem greedyAux_fuel_stable (K : Nat) (t : Int) :
    ∀ (f : Nat) (s : St) (g : Nat),
      s.cands.length + 1 ≤ f → s.cands.length + 1 ≤ g → greedyAux K t f s = greedyAux K t g s := by
  intro f
  induction f with
  | zero => intro s g hf _; omega
  | succ f ih =>
    intro s g hf hg
    by_cases hguard : s.selected.length < K ∧ s.cands ≠ []
    · rcases g with _ | g
      · omega
      simp only [greedyAux]
      rw [if_pos hguard, if_pos hguard]
      rcases hbc : bestCandidate s.selHashes t s.cands with _ | c
      · rfl
      · have hmem := bestCandidate_mem hbc
        have herase : (s.cands.erase c).length = s.cands.length - 1 :=
          List.length_erase_of_mem hmem
        have hlen : 0 < s.cands.length := List.length_pos.mpr hguard.2
        refine ih (pick s c) g ?_ ?_
        · unfold pick; simp only; omega
        · unfold pick; simp only; omega
    · rw [greedyAux_of_stop hguard, greedyAux_of_stop hguard]

theorem decayAux_eq_decay {K : Nat} {t : Int} {s : St} {fuel : Nat}
    (h : decayFuel t s ≤ fuel) : decayAux K fuel t s = decay K t s :=
  decayAux_fuel_stable K fuel t s (decayFuel t s) h le_rfl

theorem greedyAux_eq_greedy {K : Nat} {t : Int} {s : St} {fuel : Nat}
    (h : s.cands.length + 1 ≤ fuel) : greedyAux K t fuel s = greedy K t s :=
  greedyAux_fuel_stable K t fuel s (s.cands.length + 1) h le_rfl

/-! ## The loops only move candidates from `candidates` to `selected` -/

theorem decayAux_perm (K : Nat) :
    ∀ (fuel : Nat) (t : Int) (s : St),
      List.Perm ((decayAux K fuel t s).selected ++ (decayAux K fuel t s).cands)
        (s.selected ++ s.cands) := by
  intro fuel
  induction fuel with
  | zero => intro t s; exact List.Perm.refl _
  | succ fuel ih =>
    intro t s
    simp only [decayAux]
    split
    · rcases hfa : findAccept s.selHashes t s.cands with _ | c
      · exact ih (t - 2) s
      · exact (ih t (pick s c)).trans (pick_perm (findAccept_mem hfa))
    · exact List.Perm.refl _

theorem greedyAux_perm (K : Nat) (t : Int) :
    ∀ (fuel : Nat) (s : St),
      List.Perm ((greedyAux K t fuel s).selected ++ (greedyAux K t fuel s).cands)
        (s.selected ++ s.cands) := by
  intro fuel
  induction fuel with
  | zero => intro s; exact List.Perm.refl _
  | succ fuel ih =>
    intro s
    simp only [greedyAux]
    split
    · rcases hbc : bestCandidate s.selHashes t s.cands with _ | c
      · exact decayAux_perm K (decayFuel (t - 2) s) (t - 2) s
      · exact (ih (pick s c)).trans (pick_perm (bestCandidate_mem hbc))
    · exact List.Perm.refl _

theorem greedy_perm (K : Nat) (t : Int) (s : St) :
    List.Perm ((greedy K t s).selected ++ (greedy K t s).cands) (s.selected ++ s.cands) :=
  greedyAux_perm K t (s.cands.length + 1) s

/-! ## The loops only append to `selected` -/

theorem decayAux_selected_append (K : Nat) :
    ∀ (fuel : Nat) (t : Int) (s : St), ∃ u, (decayAux K fuel t s).selected = s.selected ++ u := by
  intro fuel
  induction fuel with
  | zero => intro t s; exact ⟨[], by simp [decayAux]⟩
  | succ fuel ih =>
    intro t s
    simp only [decayAux]
    split
    · rcases hfa : findAccept s.selHashes t s.cands with _ | c
      · exact ih (t - 2) s
      · rcases ih t (pick s c) with ⟨u, hu⟩
        exact ⟨c :: u, by rw [hu]; unfold pick; simp⟩
    · exact ⟨[], by simp⟩

theorem greedyAux_selected_append (K : Nat) (t : Int) :
    ∀ (fuel : Nat) (s : St), ∃ u, (greedyAux K t fuel s).selected = s.selected ++ u := by
  intro fuel
  induction fuel with
  | zero => intro s; exact ⟨[], by simp [greedyAux]⟩
  | succ fuel ih =>
    intro s
    simp only [greedyAux]
    split
    · rcases hbc : bestCandidate s.selHashes t s.cands with _ | c
      · exact decayAux_selected_append K (decayFuel (t - 2) s) (t - 2) s
      · rcases ih (pick s c) with ⟨u, hu⟩
        exact ⟨c :: u, by rw [hu]; unfold pick; simp⟩
    · exact ⟨[], by simp⟩

/-- C10: `select_best_images` terminates on every input.  Both loops of the
source are embedded with an explicit iteration fuel; this theorem proves
that `decayFuel t s = |candidates| + (threshold − 5)⁺` bounds the number of
iterations of the threshold-decay fallback loop (every iteration removes one
candidate or strictly lowers the threshold, which is bounded below by the
hard floor 5) and that `|candidates| + 1` bounds the number of iterations of
the greedy loop: any fuel at least these bounds yields the very same result,
so no input can make the nested loops run forever. -/
theorem claim_C10_loops_terminate :
    (∀ (K : Nat) (t : Int) (s : St) (fuel : Nat),
        decayFuel t s ≤ fuel → decayAux K fuel t s = decay K t s) ∧
    (∀ (K : Nat) (t : Int) (s : St) (fuel : Nat),
        s.cands.length + 1 ≤ fuel → greedyAux K t fuel s = greedy K t s) :=
  ⟨fun _ _ _ _ h => decayAux_eq_decay h, fun _ _ _ _ h => greedyAux_eq_greedy h⟩

theorem claim_C10_loops_terminate_witness :
    decayAux 2 100 15 ⟨[], [], []⟩ = decay 2 15 ⟨[], [], []⟩ ∧
      greedyAux 2 15 100 ⟨[], [], []⟩ = greedy 2 15 ⟨[], [], []⟩ :=
  ⟨claim_C10_loops_terminate.1 2 15 ⟨[], [], []⟩ 100 (by decide),
   claim_C10_loops_terminate.2 2 15 ⟨[], [], []⟩ 100 (by decide)⟩

/-! ## Shape of `select_best_images` on large pools -/

theorem select_eq_nil_of_sorted {hashOf : String → Option Fp} {sizeOf : String → Nat}
    {paths : List String} {K : Nat} {t : Int}
    (hK : ¬paths.length ≤ K)
    (hs : sortBySizeDesc (imageData hashOf sizeOf paths) = []) :
    select_best_images hashOf sizeOf paths K t = [] := by
  unfold select_best_images
  rw [if_neg hK, hs]

theorem select_eq_of_sorted {hashOf : String → Option Fp} {sizeOf : String → Nat}
    {paths : List String} {K : Nat} {t : Int} {hero : Cand} {rest : List Cand}
    (hK : ¬paths.length ≤ K)
    (hs : sortBySizeDesc (imageData hashOf sizeOf paths) = hero :: rest) :
    select_best_images hashOf sizeOf paths K t =
      ((greedy K t { selected := [hero], selHashes := [hero.hash], cands := rest }).selected).map
        Cand.path := by
  unfold select_best_images
  rw [if_neg hK, hs]

/-! ## The stable descending sort is a permutation -/

theorem insertBySize_perm (c : Cand) :
    ∀ l : List Cand, List.Perm (insertBySize c l) (c :: l) := by
  intro l
  induction l with
  | nil => exact List.Perm.refl _
  | cons y ys ih =>
    simp only [insertBySize]
    split
    · exact List.Perm.refl _
    · exact (List.Perm.cons y ih).trans (List.Perm.swap c y ys)

theorem sortBySizeDesc_perm :
    ∀ l : List Cand, List.Perm (sortBySizeDesc l) l := by
  intro l
  induction l with
  | nil => exact List.Perm.refl _
  | cons x xs ih =>
    exact (insertBySize_perm x (sortBySizeDesc xs)).trans (List.Perm.cons x ih)

/-! ## `image_data` facts -/

theorem imageData_path_sublist (hashOf : String → Option Fp) (sizeOf : String → Nat) :
    ∀ paths : List String, List.Sublist ((imageData hashOf sizeOf paths).map Cand.path) paths := by
  intro paths
  induction paths with
  | nil => simp [imageData]
  | cons p ps ih =>
    simp only [imageData, List.filterMap_cons]
    rcases h : hashOf p with _ | hp
    · simp only [Option.map_none']
      exact ih.cons p
    · simp only [Option.map_some', List.map_cons]
      exact ih.cons₂ p

theorem imageData_isSome {hashOf : String → Option Fp} {sizeOf : String → Nat}
    {paths : List String} {c : Cand} (h : c ∈ imageData hashOf sizeOf paths) :
    (hashOf c.path).isSome := by
  unfold imageData at h
  rcases List.mem_filterMap.mp h with ⟨q, _, hq⟩
  rcases Option.map_eq_some'.mp hq with ⟨hh, hmap, hc⟩
  rw [← hc]
  simp [hmap]

theorem imageData_length {hashOf : String → Option Fp} {sizeOf : String → Nat} :
    ∀ {paths : List String}, (∀ p ∈ paths, (hashOf p).isSome) →
      (imageData hashOf sizeOf paths).length = paths.length := by
  intro paths
  induction paths with
  | nil => intro _; rfl
  | cons p ps ih =>
    intro h
    have hp := h p (List.mem_cons_self _ _)
    rcases hhp : hashOf p with _ | v
    · rw [hhp] at hp; simp at hp
    · simp only [imageData, List.filterMap_cons, hhp, Option.map_some', List.length_cons]
      have := ih (fun q hq => h q (List.mem_cons_of_mem _ hq))
      unfold imageData at this
      rw [this]

/-! ## Uniqueness of identifiers in a selection -/

theorem select_nodup {hashOf : String → Option Fp} {sizeOf : String → Nat}
    {paths : List String} {K : Nat} {t : Int} (hnd : paths.Nodup) :
    (select_best_images hashOf sizeOf paths K t).Nodup := by
  by_cases hK : paths.length ≤ K
  · unfold select_best_images
    rw [if_pos hK]
    exact (List.take_sublist K paths).nodup hnd
  · rcases hs : sortBySizeDesc (imageData hashOf sizeOf paths) with _ | ⟨hero, rest⟩
    · rw [select_eq_nil_of_sorted hK hs]; exact List.nodup_nil
    · rw [select_eq_of_sorted hK hs]
      have hperm := greedy_perm K t ⟨[hero], [hero.hash], rest⟩
      have hsp := sortBySizeDesc_perm (imageData hashOf sizeOf paths)
      rw [hs] at hsp
      have hdnd : ((imageData hashOf sizeOf paths).map Cand.path).Nodup :=
        (imageData_path_sublist hashOf sizeOf paths).nodup hnd
      have hall := (hperm.trans hsp).map Cand.path
      have hbig := hall.symm.nodup hdnd
      rw [List.map_append] at hbig
      exact hbig.of_append_left

/-- C6: for every pool of candidates with pairwise-distinct identifiers and
every configuration, no identifier appears twice in the selection returned
by `select_best_images`: the strict greedy rounds and the threshold-decay
fallback only ever move a candidate from `candidates` to `selected`, so the
selection is a sub-multiset of the (duplicate-free) pool. -/
theorem claim_C6_no_duplicate_identifiers (hashOf : String → Option Fp)
    (sizeOf : String → Nat) (paths : List String) (K : Nat) (t : Int)
    (hnd : paths.Nodup) :
    (select_best_images hashOf sizeOf paths K t).Nodup :=
  select_nodup hnd

theorem claim_C6_no_duplicate_identifiers_witness :
    (select_best_images (fun _ => some [false]) (fun _ => 1) ["u", "v", "w"] 2 15).Nodup :=
  claim_C6_no_duplicate_identifiers _ _ ["u", "v", "w"] 2 15 (by decide)

/-- C7: fingerprint failure is signalled by `None` (modelled by
`hashOf p = none`) rather than an uncaught fault, and on a pool that enters
the hashing path (`|pool| > K`) the selection only ever contains candidates
whose fingerprint extraction succeeded — failed candidates are dropped from
`image_data` and the run continues (the function is total, so a corrupt
candidate never aborts it). -/
theorem claim_C7_decode_failures_excluded (hashOf : String → Option Fp)
    (sizeOf : String → Nat) (paths : List String) (K : Nat) (t : Int) (p : String)
    (hK : K < paths.length)
    (hp : p ∈ select_best_images hashOf sizeOf paths K t) :
    (hashOf p).isSome := by
  have hK2 : ¬paths.length ≤ K := by omega
  rcases hs : sortBySizeDesc (imageData hashOf sizeOf paths) with _ | ⟨hero, rest⟩
  · rw [select_eq_nil_of_sorted hK2 hs] at hp
    simp at hp
  · rw [select_eq_of_sorted hK2 hs] at hp
    rcases List.mem_map.mp hp with ⟨c, hc, rfl⟩
    have hperm := greedy_perm K t ⟨[hero], [hero.hash], rest⟩
    have hsp := sortBySizeDesc_perm (imageData hashOf sizeOf paths)
    rw [hs] at hsp
    have hmem : c ∈ imageData hashOf sizeOf paths :=
      ((hperm.trans hsp).mem_iff).mp (List.mem_append_left _ hc)
    exact imageData_isSome hmem

theorem claim_C7_decode_failures_excluded_witness :
    1 < (["u", "v"] : List String).length ∧
      "u" ∈ select_best_images (fun _ => some [false]) (fun p => if p = "u" then 2 else 1)
        ["u", "v"] 1 15 ∧
      ((fun (_ : String) => some ([false] : Fp)) "u").isSome :=
  ⟨by decide, by decide,
   claim_C7_decode_failures_excluded (fun _ => some [false])
     (fun p => if p = "u" then 2 else 1) ["u", "v"] 1 15 "u" (by decide) (by decide)⟩

/-! ## Determinism -/

theorem imageData_congr {h1 h2 : String → Option Fp} {s1 s2 : String → Nat} :
    ∀ {paths : List String}, (∀ p ∈ paths, h1 p = h2 p ∧ s1 p = s2 p) →
      imageData h1 s1 paths = imageData h2 s2 paths := by
  intro paths
  induction paths with
  | nil => intro _; rfl
  | cons p ps ih =>
    intro h
    have hp := h p (List.mem_cons_self _ _)
    simp only [imageData, List.filterMap_cons]
    rw [hp.1, hp.2]
    have := ih (fun q hq => h q (List.mem_cons_of_mem _ hq))
    unfold imageData at this
    rw [this]

/-- C9: `select_best_images` is deterministic and free of hidden
randomness: its result is a function of the pool and the configuration
alone.  Two runs whose pools carry identical identifiers (in the same
order), fingerprints and weights produce the identical selection — here
stated for two arbitrary fingerprint/weight oracles that agree on the
pool. -/
theorem claim_C9_deterministic (h1 h2 : String → Option Fp) (s1 s2 : String → Nat)
    (paths : List String) (K : Nat) (t : Int)
    (hagree : ∀ p ∈ paths, h1 p = h2 p ∧ s1 p = s2 p) :
    select_best_images h1 s1 paths K t = select_best_images h2 s2 paths K t := by
  unfold select_best_images
  rw [imageData_congr hagree]

theorem claim_C9_deterministic_witness :
    select_best_images (fun _ => some [true]) (fun _ => 0) ["x"] 1 15 =
      select_best_images (fun p => if p = "x" then some [true] else none)
        (fun p => if p = "x" then 0 else 7) ["x"] 1 15 :=
  claim_C9_deterministic _ _ _ _ ["x"] 1 15 (by decide)

/-! ## The hero: first-in-pool-order maximum weight -/


theorem firstMax1_cons (x y : Cand) (ys : List Cand) :
    firstMax1 x (y :: ys) =
      if (firstMax1 y ys).size ≤ x.size then x else firstMax1 y ys := by
  induction ys generalizing x y with
  | nil =>
    simp only [firstMax1]
    split_ifs <;> first | rfl | omega
  | cons z zs ih =>
    show (if x.size < y.size then firstMax1 y (z :: zs) else firstMax1 x (z :: zs)) = _
    rw [ih y z, ih x z]
    split_ifs <;> first | rfl | omega

theorem head_insertBySize (c : Cand) (l : List Cand) :
    (insertBySize c l).head? =
      some (match l.head? with
            | none => c
            | some y => if y.size ≤ c.size then c else y) := by
  cases l with
  | nil => rfl
  | cons y ys =>
    simp only [insertBySize, List.head?_cons]
    split_ifs <;> rfl

theorem head_sortBySizeDesc (x : Cand) (xs : List Cand) :
    (sortBySizeDesc (x :: xs)).head? = some (firstMax1 x xs) := by
  induction xs generalizing x with
  | nil => rfl
  | cons y ys ih =>
    show (insertBySize x (sortBySizeDesc (y :: ys))).head? = _
    rcases hL : sortBySizeDesc (y :: ys) with _ | ⟨m, rest⟩
    · have := ih y
      rw [hL] at this
      simp at this
    · have hm : m = firstMax1 y ys := by
        have := ih y
        rw [hL] at this
        simpa using this
    
      rw [head_insertBySize, firstMax1_cons]
      simp only [List.head?_cons, hm]

/-- C5: on a pool that enters the algorithm (`|pool| > K`, all fingerprints
succeeding, so `image_data = d :: ds`), the selection is non-empty and its
first element (the hero) is the highest-weight candidate of the pool with
ties broken by original pool order (`firstMax1 d ds`), and — identifiers
being distinct — that candidate appears exactly once in the selection,
having been removed from the remaining candidate set when selected. -/
theorem claim_C5_hero_invariant (hashOf : String → Option Fp) (sizeOf : String → Nat)
    (paths : List String) (K : Nat) (t : Int) (d : Cand) (ds : List Cand)
    (hK : K < paths.length)
    (hdata : imageData hashOf sizeOf paths = d :: ds)
    (hnd : paths.Nodup) :
    (select_best_images hashOf sizeOf paths K t).head? = some (firstMax1 d ds).path ∧
      (select_best_images hashOf sizeOf paths K t).count (firstMax1 d ds).path = 1 := by
  have hK2 : ¬paths.length ≤ K := by omega
  rcases hs : sortBySizeDesc (imageData hashOf sizeOf paths) with _ | ⟨hero, rest⟩
  · exfalso
    rw [hdata] at hs
    have := (sortBySizeDesc_perm (d :: ds)).length_eq
    rw [hs] at this
    simp at this
  · have hhero : hero = firstMax1 d ds := by
      have hh := head_sortBySizeDesc d ds
      rw [← hdata, hs] at hh
      simpa using hh
    rcases greedyAux_selected_append K t (rest.length + 1) ⟨[hero], [hero.hash], rest⟩ with ⟨u, hu⟩
    have hgre : (greedy K t ⟨[hero], [hero.hash], rest⟩).selected = [hero] ++ u := hu
    have hnodup : ((select_best_images hashOf sizeOf paths K t)).Nodup := select_nodup hnd
    rw [select_eq_of_sorted hK2 hs] at hnodup ⊢
    constructor
    · rw [hgre, hhero]
      simp
    · have hmem : (firstMax1 d ds).path ∈
          (greedy K t ⟨[hero], [hero.hash], rest⟩).selected.map Cand.path := by
        rw [hgre, hhero]
        simp
      exact List.count_eq_one_of_mem hnodup hmem

theorem claim_C5_hero_invariant_witness :
    (select_best_images (fun _ => some [false])
        (fun p => if p = "q" then 5 else if p = "p" then 3 else 1) ["p", "q", "r"] 1 15).head? =
        some "q" ∧
      (select_best_images (fun _ => some [false])
        (fun p => if p = "q" then 5 else if p = "p" then 3 else 1) ["p", "q", "r"] 1 15).count
        "q" = 1 :=
  claim_C5_hero_invariant (fun _ => some [false])
    (fun p => if p = "q" then 5 else if p = "p" then 3 else 1) ["p", "q", "r"] 1 15
    ⟨"p", [false], 3⟩ [⟨"q", [false], 5⟩, ⟨"r", [false], 1⟩]
    (by decide) (by decide) (by decide)

/-! ## The threshold-decay fallback, in the spec's vocabulary -/


theorem thresholdSeqAux_stable :
    ∀ (n m : Nat) (t : Int), (t - 5).toNat ≤ n → (t - 5).toNat ≤ m →
      thresholdSeqAux n t = thresholdSeqAux m t := by
  intro n
  induction n with
  | zero =>
    intro m t hn _
    have h5 : ¬5 < t := by omega
    cases m with
    | zero => rfl
    | succ m => show [] = if 5 < t then _ else []; rw [if_neg h5]
  | succ n ih =>
    intro m t hn hm
    by_cases h5 : 5 < t
    · cases m with
      | zero => omega
      | succ m =>
        show (if 5 < t then t :: thresholdSeqAux n (t - 2) else []) =
          (if 5 < t then t :: thresholdSeqAux m (t - 2) else [])
        rw [if_pos h5, if_pos h5, ih m (t - 2) (by omega) (by omega)]
    · cases m with
      | zero => show (if 5 < t then _ else []) = []; rw [if_neg h5]
      | succ m =>
        show (if 5 < t then _ else []) = (if 5 < t then _ else [])
        rw [if_neg h5, if_neg h5]

theorem thresholdSeq_pos {t : Int} (h : 5 < t) :
    thresholdSeq t = t :: thresholdSeq (t - 2) := by
  unfold thresholdSeq
  have hx : ∃ n, (t - 5).toNat = n + 1 := ⟨(t - 5).toNat - 1, by omega⟩
  rcases hx with ⟨n, hn⟩
  rw [hn]
  show (if 5 < t then t :: thresholdSeqAux n (t - 2) else []) = _
  rw [if_pos h, thresholdSeqAux_stable n (t - 2 - 5).toNat (t - 2) (by omega) le_rfl]

theorem thresholdSeq_neg {t : Int} (h : ¬5 < t) : thresholdSeq t = [] := by
  unfold thresholdSeq
  have hn : (t - 5).toNat = 0 := by omega
  rw [hn]
  rfl

theorem thresholdSeq_mem :
    ∀ (n : Nat) (t u : Int), u ∈ thresholdSeqAux n t →
      5 < u ∧ ∃ k : Nat, u = t - 2 * k := by
  intro n
  induction n with
  | zero => intro t u h; simp [thresholdSeqAux] at h
  | succ n ih =>
    intro t u h
    by_cases h5 : 5 < t
    · rw [show thresholdSeqAux (n + 1) t = t :: thresholdSeqAux n (t - 2) from by
        show (if 5 < t then _ else []) = _; rw [if_pos h5]] at h
      rcases List.mem_cons.mp h with rfl | h
      · exact ⟨h5, 0, by omega⟩
      · rcases ih (t - 2) u h with ⟨hu, k, hk⟩
        exact ⟨hu, k + 1, by omega⟩
    · rw [show thresholdSeqAux (n + 1) t = [] from by
        show (if 5 < t then _ else []) = _; rw [if_neg h5]] at h
      simp at h



theorem acceptRun_of_stop {K : Nat} {t : Int} {s : St}
    (h : ¬(s.selected.length < K ∧ s.cands ≠ [])) :
    ∀ fuel, acceptRun K t fuel s = s := by
  intro fuel
  cases fuel with
  | zero => rfl
  | succ fuel => show (if _ then _ else s) = s; rw [if_neg h]

theorem decaySpec_of_stop {K : Nat} {s : St}
    (h : ¬(s.selected.length < K ∧ s.cands ≠ [])) :
    ∀ ts, decaySpec K ts s = s := by
  intro ts
  induction ts with
  | nil => rfl
  | cons t ts ih =>
    show decaySpec K ts (acceptRun K t s.cands.length s) = s
    rw [acceptRun_of_stop h]
    exact ih

theorem acceptRun_step {K : Nat} {t : Int} {s : St} {c : Cand}
    (hguard : s.selected.length < K ∧ s.cands ≠ [])
    (hfa : findAccept s.selHashes t s.cands = some c) :
    acceptRun K t s.cands.length s = acceptRun K t (pick s c).cands.length (pick s c) := by
  have hlen : 0 < s.cands.length := List.length_pos.mpr hguard.2
  have herase : (pick s c).cands.length = s.cands.length - 1 :=
    List.length_erase_of_mem (findAccept_mem hfa)
  have hx : ∃ m, s.cands.length = m + 1 := ⟨s.cands.length - 1, by omega⟩
  rcases hx with ⟨m, hm⟩
  rw [hm]
  show (if _ then _ else s) = _
  rw [if_pos hguard, hfa]
  have : (pick s c).cands.length = m := by omega
  rw [this]

theorem acceptRun_none {K : Nat} {t : Int} {s : St}
    (hguard : s.selected.length < K ∧ s.cands ≠ [])
    (hfa : findAccept s.selHashes t s.cands = none) :
    acceptRun K t s.cands.length s = s := by
  have hlen : 0 < s.cands.length := List.length_pos.mpr hguard.2
  have hx : ∃ m, s.cands.length = m + 1 := ⟨s.cands.length - 1, by omega⟩
  rcases hx with ⟨m, hm⟩
  rw [hm]
  show (if _ then _ else s) = s
  rw [if_pos hguard, hfa]

theorem decay_unfold (K : Nat) (t : Int) (s : St) :
    decay K t s =
      if 5 < t ∧ s.selected.length < K ∧ s.cands ≠ [] then
        match findAccept s.selHashes t s.cands with
        | some c => decay K t (pick s c)
        | none => decay K (t - 2) s
      else s := by
  by_cases hguard : 5 < t ∧ s.selected.length < K ∧ s.cands ≠ []
  · obtain ⟨h5, hsel, hne⟩ := hguard
    have hlen : 0 < s.cands.length := List.length_pos.mpr hne
    have hfuel : ∃ n, decayFuel t s = n + 1 := ⟨decayFuel t s - 1, by unfold decayFuel; omega⟩
    rcases hfuel with ⟨n, hn⟩
    rw [if_pos ⟨h5, hsel, hne⟩]
    show decayAux K (decayFuel t s) t s = _
    rw [hn]
    show (if _ then _ else s) = _
    rw [if_pos ⟨h5, hsel, hne⟩]
    rcases hfa : findAccept s.selHashes t s.cands with _ | c
    · exact decayAux_eq_decay (by unfold decayFuel at hn ⊢; omega)
    · have herase : (s.cands.erase c).length = s.cands.length - 1 :=
        List.length_erase_of_mem (findAccept_mem hfa)
      exact decayAux_eq_decay (by unfold decayFuel at hn ⊢; unfold pick; simp only; omega)
  · rw [if_neg hguard]
    exact decayAux_of_stop hguard _

theorem decay_eq_decaySpec (K : Nat) :
    ∀ (n : Nat) (t : Int) (s : St), decayFuel t s ≤ n →
      decay K t s = decaySpec K (thresholdSeq t) s := by
  intro n
  induction n with
  | zero =>
    intro t s h
    have h5 : ¬5 < t := by unfold decayFuel at h; omega
    rw [thresholdSeq_neg h5]
    show decay K t s = s
    exact decayAux_of_stop (fun hc => h5 hc.1) _
  | succ n ih =>
    intro t s h
    by_cases hguard : 5 < t ∧ s.selected.length < K ∧ s.cands ≠ []
    · obtain ⟨h5, hsel, hne⟩ := hguard
      have hlen : 0 < s.cands.length := List.length_pos.mpr hne
      rw [thresholdSeq_pos h5, decay_unfold, if_pos ⟨h5, hsel, hne⟩]
      rcases hfa : findAccept s.selHashes t s.cands with _ | c
      · show decay K (t - 2) s = decaySpec K (t :: thresholdSeq (t - 2)) s
        show decay K (t - 2) s = decaySpec K (thresholdSeq (t - 2)) (acceptRun K t s.cands.length s)
        rw [acceptRun_none ⟨hsel, hne⟩ hfa]
        exact ih (t - 2) s (by unfold decayFuel at h ⊢; omega)
      · show decay K t (pick s c) = decaySpec K (t :: thresholdSeq (t - 2)) s
        have herase : (s.cands.erase c).length = s.cands.length - 1 :=
          List.length_erase_of_mem (findAccept_mem hfa)
        have hrhs : decaySpec K (t :: thresholdSeq (t - 2)) s =
            decaySpec K (t :: thresholdSeq (t - 2)) (pick s c) := by
          show decaySpec K (thresholdSeq (t - 2)) (acceptRun K t s.cands.length s) =
            decaySpec K (thresholdSeq (t - 2)) (acceptRun K t (pick s c).cands.length (pick s c))
          rw [acceptRun_step ⟨hsel, hne⟩ hfa]
        rw [hrhs, ← thresholdSeq_pos h5]
        exact ih t (pick s c)
          (by unfold decayFuel at h ⊢; unfold pick; simp only; omega)
    · rw [decay_unfold, if_neg hguard]
      by_cases h5 : 5 < t
      · rw [thresholdSeq_pos h5]
        have hg2 : ¬(s.selected.length < K ∧ s.cands ≠ []) := by
          intro hc; exact hguard ⟨h5, hc.1, hc.2⟩
        show s = decaySpec K (thresholdSeq (t - 2)) (acceptRun K t s.cands.length s)
        rw [acceptRun_of_stop hg2, decaySpec_of_stop hg2]
      · rw [thresholdSeq_neg h5]
        rfl

/-- C2: when the strict greedy pass stalls before reaching `K` selections
while candidates remain, the selector runs the threshold-decay fallback:
starting from `similarity_threshold − 2` and decrementing by 2 down to the
hard (exclusive) floor 5 — every scanned threshold `u` satisfies `5 < u` and
`u = t − 2 − 2k` — at each threshold it repeatedly accepts, and removes, the
first remaining candidate whose minimum distance to the current selection
meets that threshold, until `K` is reached, candidates are exhausted, or the
floor is reached (`decaySpec` is the spec-worded algorithm; the equality
shows the code's fallback refines it). -/
theorem claim_C2_threshold_decay_fallback (K : Nat) (t : Int) (s : St)
    (hsel : s.selected.length < K) (hne : s.cands ≠ [])
    (hstall : bestCandidate s.selHashes t s.cands = none) :
    greedy K t s = decaySpec K (thresholdSeq (t - 2)) s ∧
      ∀ u ∈ thresholdSeq (t - 2), 5 < u ∧ ∃ k : Nat, u = t - 2 - 2 * k := by
  constructor
  · show greedyAux K t (s.cands.length + 1) s = _
    show (if _ then _ else s) = _
    rw [if_pos ⟨hsel, hne⟩, hstall]
    exact decay_eq_decaySpec K (decayFuel (t - 2) s) (t - 2) s le_rfl
  · intro u hu
    rcases thresholdSeq_mem (t - 2 - 5).toNat (t - 2) u hu with ⟨h5, k, hk⟩
    exact ⟨h5, k, by omega⟩

theorem claim_C2_threshold_decay_fallback_witness :
    greedy 2 15 ⟨[⟨"a", [false], 5⟩], [[false]], [⟨"b", [false], 4⟩]⟩ =
        decaySpec 2 (thresholdSeq 13) ⟨[⟨"a", [false], 5⟩], [[false]], [⟨"b", [false], 4⟩]⟩ ∧
      ∀ u ∈ thresholdSeq 13, 5 < u ∧ ∃ k : Nat, u = 13 - 2 * k :=
  claim_C2_threshold_decay_fallback 2 15 ⟨[⟨"a", [false], 5⟩], [[false]], [⟨"b", [false], 4⟩]⟩
    (by decide) (by decide) (by decide)


/-- C3 counterexample: a pool of 8 candidates whose fingerprints form the
two tight clusters of the claim — intra-cluster Hamming distance 2,
inter-cluster Hamming distance 40, all fingerprints succeeding — with
`target_count 4` and `similarity_threshold 15` does NOT yield a selection of
length 4: the intra-cluster distance 2 never reaches the decay fallback's
lowest scanned threshold, so the selection stops at length 2. -/
theorem claim_C3_two_clusters_counterexample :
    (∀ p ∈ poolB, (hashB p).isSome) ∧
      (∀ p ∈ clusterA, ∀ q ∈ clusterA, p ≠ q →
        hamming ((hashB p).getD []) ((hashB q).getD []) = 2) ∧
      (∀ p ∈ clusterB, ∀ q ∈ clusterB, p ≠ q →
        hamming ((hashB p).getD []) ((hashB q).getD []) = 2) ∧
      (∀ p ∈ clusterA, ∀ q ∈ clusterB,
        hamming ((hashB p).getD []) ((hashB q).getD []) = 40) ∧
      (select_best_images hashB sizeB poolB 4 15).length ≠ 4 := by
  decide

/-- C3 amended: on that two-cluster pool the selection does include
candidates from both clusters, but its length is 2, not 4 — the hero `a0`
plus the first cluster-B candidate `b0`; every remaining candidate is within
distance 2 of one of them, below every scanned fallback threshold. -/
theorem claim_C3_two_clusters_amended :
    select_best_images hashB sizeB poolB 4 15 = ["a0", "b0"] ∧
      "a0" ∈ clusterA ∧ "b0" ∈ clusterB := by
  decide

/-! ## Lower bounds on the minimum distance -/

theorem foldl_min_ge {h : Fp} {n : Nat} :
    ∀ (xs : List Fp) (m : Nat), n ≤ m → (∀ g ∈ xs, n ≤ hamming h g) →
      n ≤ xs.foldl (fun m g => min m (hamming h g)) m := by
  intro xs
  induction xs with
  | nil => intro m hm _; exact hm
  | cons x xs ih =>
    intro m hm hall
    show n ≤ xs.foldl _ (min m (hamming h x))
    exact ih _ (le_min hm (hall x (List.mem_cons_self _ _)))
      (fun g hg => hall g (List.mem_cons_of_mem _ hg))

theorem minDist_ge {h : Fp} {sh : List Fp} {n : Nat} (hne : sh ≠ [])
    (hall : ∀ g ∈ sh, n ≤ hamming h g) : n ≤ minDist h sh := by
  rcases sh with _ | ⟨x, xs⟩
  · exact absurd rfl hne
  · show n ≤ xs.foldl (fun m g => min m (hamming h g)) (hamming h x)
    exact foldl_min_ge xs _ (hall x (List.mem_cons_self _ _))
      (fun g hg => hall g (List.mem_cons_of_mem _ hg))

/-! ## Well-separated pools fill the target count -/


theorem hamming_ge_symm : Symmetric (fun a b : Fp => 7 ≤ hamming a b) := by
  intro a b h
  rw [hamming_comm]
  exact h

theorem Separated.pick {s : St} {c : Cand} (hmem : c ∈ s.cands) (hP : Separated s) :
    Separated (pick s c) :=
  ((pick_hashes_perm hmem).pairwise_iff (fun hab => hamming_ge_symm hab)).mpr hP

theorem sep_minDist {s : St} {c : Cand} (hP : Separated s)
    (hsh : s.selHashes ≠ []) (hmem : c ∈ s.cands) :
    7 ≤ minDist c.hash s.selHashes := by
  have hcross := (List.pairwise_append.mp hP).2.2
  refine minDist_ge hsh (fun g hg => ?_)
  rw [hamming_comm]
  exact hcross g hg c.hash (List.mem_map_of_mem Cand.hash hmem)

theorem decayAux_length (K : Nat) :
    ∀ (fuel : Nat) (t : Int) (s : St),
      decayFuel t s ≤ fuel → 5 < t → s.selHashes ≠ [] → s.selected.length ≤ K →
      Separated s →
      (decayAux K fuel t s).selected.length = min K (s.selected.length + s.cands.length) := by
  intro fuel
  induction fuel with
  | zero =>
    intro t s hfuel h5 _ _ _
    exfalso
    unfold decayFuel at hfuel
    omega
  | succ fuel ih =>
    intro t s hfuel h5 hsh hselK hP
    by_cases hguard2 : s.selected.length < K ∧ s.cands ≠ []
    · have hlen : 0 < s.cands.length := List.length_pos.mpr hguard2.2
      simp only [decayAux]
      rw [if_pos ⟨h5, hguard2.1, hguard2.2⟩]
      rcases hfa : findAccept s.selHashes t s.cands with _ | c
      · rcases hc : s.cands with _ | ⟨c0, cs⟩
        · exact absurd hc hguard2.2
        have hc0 : c0 ∈ s.cands := by rw [hc]; exact List.mem_cons_self _ _
        have h7 : 7 ≤ minDist c0.hash s.selHashes := sep_minDist hP hsh hc0
        have ht7 : 7 < t := by
          by_contra hle
          have hnone := List.find?_eq_none.mp hfa c0 hc0
          simp only [decide_eq_true_eq] at hnone
          omega
        have := ih (t - 2) s (by unfold decayFuel at hfuel ⊢; omega) (by omega) hsh hselK hP
        rw [this, hc]
      · have hmem := findAccept_mem hfa
        have herase := List.length_erase_of_mem hmem
        have hres := ih t (pick s c) (by unfold decayFuel at hfuel ⊢; unfold pick; simp only; omega)
          h5 (by unfold pick; simp) (by unfold pick; simp only [List.length_append]; simp; omega)
          (hP.pick hmem)
        rw [hres]
        unfold pick
        simp only [List.length_append, List.length_cons, List.length_nil]
        omega
    · rw [decayAux_of_stop (fun hg => hguard2 ⟨hg.2.1, hg.2.2⟩) (fuel + 1)]
      rcases not_and_or.mp hguard2 with hKle | hcnil
      · have hsK : s.selected.length = K := by omega
        omega
      · have hc : s.cands = [] := not_not.mp hcnil
        rw [hc]
        simp
        omega

theorem greedyAux_length (K : Nat) (t : Int) (h7 : 7 < t) :
    ∀ (fuel : Nat) (s : St),
      s.cands.length + 1 ≤ fuel → s.selHashes ≠ [] → s.selected.length ≤ K →
      Separated s →
      (greedyAux K t fuel s).selected.length = min K (s.selected.length + s.cands.length) := by
  intro fuel
  induction fuel with
  | zero => intro s hfuel _ _ _; omega
  | succ fuel ih =>
    intro s hfuel hsh hselK hP
    by_cases hguard : s.selected.length < K ∧ s.cands ≠ []
    · have hlen : 0 < s.cands.length := List.length_pos.mpr hguard.2
      simp only [greedyAux]
      rw [if_pos hguard]
      rcases hbc : bestCandidate s.selHashes t s.cands with _ | c
      · have := decayAux_length K (decayFuel (t - 2) s) (t - 2) s le_rfl (by omega) hsh hselK hP
        exact this
      · have hmem := bestCandidate_mem hbc
        have herase := List.length_erase_of_mem hmem
        have hres := ih (pick s c) (by unfold pick; simp only; omega)
          (by unfold pick; simp) (by unfold pick; simp only [List.length_append]; simp; omega)
          (hP.pick hmem)
        rw [hres]
        unfold pick
        simp only [List.length_append, List.length_cons, List.length_nil]
        omega
    · rw [greedyAux_of_stop hguard (fuel + 1)]
      rcases not_and_or.mp hguard with hKle | hcnil
      · omega
      · have hc : s.cands = [] := not_not.mp hcnil
        rw [hc]
        simp
        omega

/-- C1 amended: on a pool with `|pool| > K ≥ 1` whose candidates all
fingerprint successfully, the selection has length exactly `K` provided the
configuration leaves the fallback decay room (`similarity_threshold ≥ 8`)
and every pair of pool fingerprints is at Hamming distance at least 7 — the
lowest threshold the decay can scan before hitting the hard floor 5.  (The
original claim's premise that "the floor is below any finite distance" is
false of the code: distances 0–6 are below every scanned threshold, see the
counterexample.) -/
theorem claim_C1_fills_target_when_separated (hashOf : String → Option Fp)
    (sizeOf : String → Nat) (paths : List String) (K : Nat) (t : Int)
    (hK1 : 1 ≤ K) (hKlt : K < paths.length)
    (hsome : ∀ p ∈ paths, (hashOf p).isSome)
    (ht : 7 < t)
    (hsep : List.Pairwise (fun c d => 7 ≤ hamming c.hash d.hash)
      (imageData hashOf sizeOf paths)) :
    (select_best_images hashOf sizeOf paths K t).length = K := by
  have hK2 : ¬paths.length ≤ K := by omega
  have hlen : (imageData hashOf sizeOf paths).length = paths.length := imageData_length hsome
  rcases hs : sortBySizeDesc (imageData hashOf sizeOf paths) with _ | ⟨hero, rest⟩
  · exfalso
    have := (sortBySizeDesc_perm (imageData hashOf sizeOf paths)).length_eq
    rw [hs] at this
    simp at this
    omega
  · rw [select_eq_of_sorted hK2 hs, List.length_map]
    have hsp := sortBySizeDesc_perm (imageData hashOf sizeOf paths)
    rw [hs] at hsp
    have hsep2 : List.Pairwise (fun c d => 7 ≤ hamming c.hash d.hash) (hero :: rest) :=
      (hsp.pairwise_iff (fun hab => hamming_ge_symm hab)).mpr hsep
    have hP : Separated ⟨[hero], [hero.hash], rest⟩ := by
      unfold Separated
      simp only
      show List.Pairwise _ (List.map Cand.hash (hero :: rest))
      exact List.pairwise_map.mpr hsep2
    have hres := greedyAux_length K t ht (rest.length + 1) ⟨[hero], [hero.hash], rest⟩
      le_rfl (by simp) (by simp; omega) hP
    have hre : rest.length + 1 = paths.length := by
      have := hsp.length_eq
      simp at this
      omega
    show (greedyAux K t (rest.length + 1) ⟨[hero], [hero.hash], rest⟩).selected.length = K
    rw [hres]
    simp only [List.length_cons, List.length_nil]
    omega


/-- C1 counterexample: a pool of 3 candidates (|pool| > K = 2), all
fingerprinting successfully, with 2 candidates remaining after the hero —
so the fallback runs with its full decay room down to the floor — yet the
selection has length 1, not `K = 2`: all fingerprints coincide (distance 0),
and the decaying threshold never reaches 0 because of the hard floor 5, so
the claim's parenthetical "the floor is below any finite distance" fails. -/
theorem claim_C1_counterexample :
    2 < poolC1.length ∧ (∀ p ∈ poolC1, (hashC1 p).isSome) ∧
      2 ≤ poolC1.length - 1 ∧
      (select_best_images hashC1 sizeC1 poolC1 2 15).length ≠ 2 := by
  decide

theorem claim_C1_fills_target_when_separated_witness :
    (select_best_images
      (fun p => if p = "m" then some (List.replicate 8 false) else some (List.replicate 8 true))
      (fun _ => 1) ["m", "n"] 1 15).length = 1 :=
  claim_C1_fills_target_when_separated
    (fun p => if p = "m" then some (List.replicate 8 false) else some (List.replicate 8 true))
    (fun _ => 1) ["m", "n"] 1 15 (by decide) (by decide) (by decide) (by decide) (by decide)
